import Mathlib

set_option maxHeartbeats 1000000

/-!
Shallow embedding of the extract-livp utility (src/main.py) and proofs of the
specification claims about it.

The embedding models:
* `sanitize_stem` — the regex substitution replacing runs of the character class
  in `[<>:"/\\|?*\n\r]+` by a single underscore, followed by Python's
  `str.strip()`;
* `get_unique_stem` — the collision-safe stem allocator (registry dictionary plus
  disk-existence loop);
* the archive member-selection scan and the per-file processing loop of `main`,
  with the output directory modelled as an association list from file name to
  file bytes, and a zip archive modelled as either corrupt (opening raises
  `BadZipFile`) or a list of members in stored order.
-/

/-- The characters of the character class in `re.sub` of `sanitize_stem`. -/
def illegalChars : List Char := ['<', '>', ':', '"', '/', '\\', '|', '?', '*', '\n', '\r']

def isIllegal (c : Char) : Bool := decide (c ∈ illegalChars)

/-- The ASCII whitespace characters stripped by Python's `str.strip()`. -/
def pySpaceChars : List Char := [' ', '\t', '\n', '\r', '\x0b', '\x0c']

def pyIsSpace (c : Char) : Bool := decide (c ∈ pySpaceChars)

/-- The substitution `re.sub(char-class+, underscore, s)`: every maximal run of
characters of the class is replaced by one underscore.  The boolean argument
records whether the previous character belonged to the class (i.e. whether we
are inside a run that has already emitted its underscore). -/
def subIllegal : Bool → List Char → List Char
  | _, [] => []
  | prev, c :: cs =>
    if isIllegal c then
      if prev then subIllegal true cs else '_' :: subIllegal true cs
    else
      c :: subIllegal false cs

/-- Python `str.strip()`: drop whitespace from both ends. -/
def pyStrip (l : List Char) : List Char :=
  ((l.dropWhile pyIsSpace).reverse.dropWhile pyIsSpace).reverse

/-- `sanitize_stem` from src/main.py: substitute the illegal-character runs,
then strip surrounding whitespace. -/
def sanitize_stem (stem : String) : String :=
  ⟨pyStrip (subIllegal false stem.data)⟩

/-- `IMAGE_EXTS` from src/main.py. -/
def IMAGE_EXTS : List String := [".heic", ".jpg", ".jpeg"]

/-- The tuple `('.mov',) + IMAGE_EXTS` used for the disk-collision check. -/
def OUT_EXTS : List String := [".mov", ".heic", ".jpg", ".jpeg"]

/-- The candidate stem for a base stem and a counter value: the base stem when
the counter is zero, otherwise `base_counter` (f-string with the decimal
rendering of the counter). -/
def candName (b : String) (c : Nat) : String :=
  if c = 0 then b else b ++ "_" ++ toString c

/-- The disk-collision test of `get_unique_stem`: some file `candidate ++ ext`
with `ext` among the recognized output extensions exists in the output
directory, whose file names are `D`. -/
def collides (D : List String) (cand : String) : Bool :=
  OUT_EXTS.any (fun e => decide ((cand ++ e) ∈ D))

/-- The `while` loop of `get_unique_stem`, with explicit fuel: while the
candidate for the current counter collides with a file on disk, increment the
counter.  Returns the final counter value. -/
def allocLoop (D : List String) (b : String) : Nat → Nat → Option Nat
  | 0, _ => none
  | fuel + 1, c => if collides D (candName b c) then allocLoop D b fuel (c + 1) else some c

/-- Lookup in the registry dictionary (`existing_stems`). -/
def lookupReg : List (String × Nat) → String → Option Nat
  | [], _ => none
  | (k, v) :: r, b => if k = b then some v else lookupReg r b

/-- Store a value in the registry dictionary: update in place, or append a new
key (Python dictionaries keep insertion order). -/
def insertReg : List (String × Nat) → String → Nat → List (String × Nat)
  | [], b, c => [(b, c)]
  | (k, v) :: r, b, c => if k = b then (k, c) :: r else (k, v) :: insertReg r b c

/-- Fuel that always suffices for `allocLoop` (proved below): one more than the
number of (file, extension) pairs that could collide. -/
def allocFuel (D : List String) : Nat := 4 * D.length + 1

/-- `get_unique_stem` from src/main.py.  `R` is the registry dictionary
(`existing_stems`), `D` the list of file names present in the output directory.
Sanitize the raw stem, start from the registry's counter for it (`0` when the
base stem has not been seen this run), run the disk-collision loop, and return
the final candidate together with the updated registry.  The trailing
`if/else` of the source (lines 30–35) leaves the registry exactly at the
loop's final counter, which is what `insertReg` records here. -/
def get_unique_stem (baseStem : String) (R : List (String × Nat)) (D : List String) :
    String × List (String × Nat) :=
  let b := sanitize_stem baseStem
  let c0 := (lookupReg R b).getD 0
  let c := (allocLoop D b (allocFuel D) c0).getD c0
  (candName b c, insertReg R b c)

/-- Split a character list at every slash (the segments of a POSIX path string,
before pathlib's normalization). -/
def splitSeg : List Char → List Char → List (List Char)
  | [], acc => [acc.reverse]
  | c :: cs, acc => if c = '/' then acc.reverse :: splitSeg cs [] else splitSeg cs (c :: acc)

/-- The `parts` of `PurePosixPath(s)` for the relative paths stored in zip
archives: split on slashes and drop empty segments and single-dot segments
(pathlib normalizes both away).  (The root part of an absolute path is also
dropped; it is never hidden nor metadata, so the member filter is unaffected.) -/
def posixParts (s : String) : List String :=
  ((splitSeg s.data []).map (fun l => (⟨l⟩ : String))).filter (fun t => t != "" && t != ".")

/-- `PurePosixPath(s).name`: the last path segment, or the empty string. -/
def posixName (s : String) : String := (posixParts s).getLastD ""

/-- `PurePosixPath(...).suffix` applied to a base name `nm`: the part of the
name from its last dot on, provided that dot is neither the first nor the last
character; otherwise the empty string.  (`i` below is `nm.rfind(dot)`;
`post` is the run of non-dot characters after it.) -/
def posixSuffix (nm : String) : String :=
  let post := (nm.data.reverse.takeWhile (fun c => c != '.')).reverse
  if '.' ∈ nm.data ∧ 0 < nm.data.length - post.length - 1 ∧ 1 ≤ post.length then
    ⟨'.' :: post⟩
  else ""

/-- Python `str.lower()` (ASCII range; the recognized extensions are ASCII). -/
def lowerStr (s : String) : String := ⟨s.data.map Char.toLower⟩

/-- Python `str.startswith`. -/
def strStartsWith (s p : String) : Bool := p.data.isPrefixOf s.data

/-- Python `str.endswith` for a single suffix. -/
def endsWithStr (s e : String) : Bool := e.data.isSuffixOf s.data

/-- `name_lower.endswith(IMAGE_EXTS)` (tuple endswith: any of the suffixes). -/
def hasImageExt (s : String) : Bool := IMAGE_EXTS.any (fun e => endsWithStr s e)

/-- `name_lower.endswith(mov-ext)`. -/
def isMovName (s : String) : Bool := endsWithStr s ".mov"

/-- A zip archive member: its stored path and its decompressed bytes. -/
structure Member where
  name : String
  content : List Nat
deriving DecidableEq

/-- `name_lower` of the member-selection loop: the lower-cased base name. -/
def nameLower (m : Member) : String := lowerStr (posixName m.name)

/-- The skip test of the member-selection loop: some lower-cased path segment
starts with the macOS metadata-directory string, or some lower-cased path
segment starts with a dot. -/
def isExcluded (m : Member) : Bool :=
  let parts := (posixParts m.name).map lowerStr
  parts.any (fun p => strStartsWith p "__macosx") || parts.any (fun p => strStartsWith p ".")

/-- The member-selection loop of `main` (src/main.py lines 118–135): scan the
members in stored order, skip excluded ones, keep the first member whose
lower-cased base name ends with a recognized image extension and (via `elif`)
the first whose lower-cased base name ends with the video extension, and stop
as soon as both are found. -/
def scanMembers : List Member → Option Member → Option Member → Option Member × Option Member
  | [], img, mov => (img, mov)
  | m :: rest, img, mov =>
    if isExcluded m then scanMembers rest img mov
    else
      let pair :=
        if hasImageExt (nameLower m) then (some (img.getD m), mov)
        else if isMovName (nameLower m) then (img, some (mov.getD m))
        else (img, mov)
      if pair.1.isSome && pair.2.isSome then pair
      else scanMembers rest pair.1 pair.2

/-- A `.livp` file's archive: opening it either raises `BadZipFile` or yields
its member list in stored order. -/
inductive Archive where
  | corrupt : Archive
  | valid : List Member → Archive
deriving DecidableEq

/-- One enumerated `.livp` input file: its path stem and its archive. -/
structure LivpFile where
  stem : String
  archive : Archive
deriving DecidableEq

/-- The output directory: an association list from file name to file bytes.
Writing prepends; earlier entries for the same name are shadowed by `lookupDisk`,
matching a directory in which a rewritten file keeps its name. -/
abbrev Disk := List (String × List Nat)

/-- The file names present in the output directory. -/
def diskNames (d : Disk) : List String := d.map Prod.fst

/-- `open(path, wb)` followed by a full copy: (over)write the named file. -/
def writeFile (d : Disk) (nm : String) (content : List Nat) : Disk := (nm, content) :: d

/-- Read the current bytes of a file in the output directory. -/
def lookupDisk : Disk → String → Option (List Nat)
  | [], _ => none
  | (k, v) :: r, nm => if k = nm then some v else lookupDisk r nm

/-- The per-file outcome of the processing loop. -/
inductive ExtResult where
  | success
  | skippedIncomplete
  | corrupt
deriving DecidableEq

/-- The state threaded through the processing loop of `main`: the registry
dictionary `seen_filenames`, the output directory contents, and the two
counters. -/
structure RunState where
  registry : List (String × Nat)
  disk : Disk
  succ : Nat
  failed : Nat
deriving DecidableEq

/-- The body of the processing loop of `main` (src/main.py lines 94–160) for
one file: allocate a unique stem (this happens before the archive is opened,
so the registry is updated even for corrupt archives), then open the archive;
`BadZipFile` is counted as a failure; a valid archive missing an image or a
video member is counted as a failure without writing; otherwise the image
member is written to `{stem}{image_ext}` with `image_ext` the lower-cased
suffix of the image member's name, the video member to `{stem}.mov`, and the
success counter is incremented.  Also returns the allocated stem and the
outcome. -/
def processFile (st : RunState) (f : LivpFile) : RunState × String × ExtResult :=
  let alloc := get_unique_stem f.stem st.registry (diskNames st.disk)
  let uniqueStem := alloc.1
  let reg := alloc.2
  match f.archive with
  | Archive.corrupt =>
    ({ st with registry := reg, failed := st.failed + 1 }, uniqueStem, ExtResult.corrupt)
  | Archive.valid members =>
    match scanMembers members none none with
    | (some img, some mov) =>
      let imageExt := lowerStr (posixSuffix (posixName img.name))
      let d1 := writeFile st.disk (uniqueStem ++ imageExt) img.content
      let d2 := writeFile d1 (uniqueStem ++ ".mov") mov.content
      ({ st with registry := reg, disk := d2, succ := st.succ + 1 }, uniqueStem,
        ExtResult.success)
    | _ =>
      ({ st with registry := reg, failed := st.failed + 1 }, uniqueStem,
        ExtResult.skippedIncomplete)

/-- The processing loop of `main`: process the enumerated files in order,
collecting the final state and the per-file trace of allocated stems and
outcomes. -/
def runLoop : RunState → List LivpFile → RunState × List (String × ExtResult)
  | st, [] => (st, [])
  | st, f :: fs =>
    let step := processFile st f
    let rest := runLoop step.1 fs
    (rest.1, (step.2.1, step.2.2) :: rest.2)

/-- The initial state of a run: empty registry, zero counters, and whatever
the output directory already contains. -/
def initState (d : Disk) : RunState := ⟨[], d, 0, 0⟩

/-- The decimal digit characters. -/
def digitList : List Char := ['0', '1', '2', '3', '4', '5', '6', '7', '8', '9']

/-- Specification version of the decimal rendering of a natural number, used
to reason about `Nat.repr` (which is what the f-string of `candName` uses). -/
def myDigits (n : Nat) : List Char :=
  if _h : n < 10 then [Nat.digitChar n]
  else myDigits (n / 10) ++ [Nat.digitChar (n % 10)]
decreasing_by exact Nat.div_lt_self (by omega) (by omega)

/-! ### Theorems -/

theorem string_eq_of_data {s t : String} (h : s.data = t.data) : s = t := by
  cases s; cases t; exact congrArg String.mk h

theorem digitChar_mem_digitList {n : Nat} (h : n < 10) : Nat.digitChar n ∈ digitList := by
  interval_cases n <;> decide

theorem digitChar_inj10 {a b : Nat} (ha : a < 10) (hb : b < 10)
    (h : Nat.digitChar a = Nat.digitChar b) : a = b := by
  interval_cases a <;> interval_cases b <;> first | rfl | (exfalso; revert h; decide)

theorem myDigits_lt10 {n : Nat} (h : n < 10) : myDigits n = [Nat.digitChar n] := by
  rw [myDigits]; simp [h]

theorem myDigits_ge10 {n : Nat} (h : ¬ n < 10) :
    myDigits n = myDigits (n / 10) ++ [Nat.digitChar (n % 10)] := by
  rw [myDigits]; simp [h]

theorem myDigits_ne_nil (n : Nat) : myDigits n ≠ [] := by
  by_cases h : n < 10
  · rw [myDigits_lt10 h]; simp
  · rw [myDigits_ge10 h]; simp

theorem myDigits_mem_digitList (n : Nat) : ∀ c ∈ myDigits n, c ∈ digitList := by
  induction n using Nat.strong_induction_on with
  | _ n ih =>
    by_cases h : n < 10
    · rw [myDigits_lt10 h]
      intro c hc
      simp only [List.mem_singleton] at hc
      exact hc ▸ digitChar_mem_digitList h
    · rw [myDigits_ge10 h]
      intro c hc
      rcases List.mem_append.1 hc with hc | hc
      · exact ih (n / 10) (Nat.div_lt_self (by omega) (by omega)) c hc
      · simp only [List.mem_singleton] at hc
        exact hc ▸ digitChar_mem_digitList (Nat.mod_lt _ (by omega))

theorem myDigits_inj : ∀ n, ∀ m, myDigits n = myDigits m → n = m := by
  intro n
  induction n using Nat.strong_induction_on with
  | _ n ih =>
    intro m h
    by_cases hn : n < 10 <;> by_cases hm : m < 10
    · rw [myDigits_lt10 hn, myDigits_lt10 hm] at h
      simp only [List.cons.injEq] at h
      exact digitChar_inj10 hn hm h.1
    · rw [myDigits_lt10 hn, myDigits_ge10 hm] at h
      exfalso
      have hlen := congrArg List.length h
      have h1 : 1 ≤ (myDigits (m / 10)).length := by
        cases hd : myDigits (m / 10) with
        | nil => exact absurd hd (myDigits_ne_nil _)
        | cons a l => simp
      simp only [List.length_singleton, List.length_append] at hlen
      omega
    · rw [myDigits_ge10 hn, myDigits_lt10 hm] at h
      exfalso
      have hlen := congrArg List.length h
      have h1 : 1 ≤ (myDigits (n / 10)).length := by
        cases hd : myDigits (n / 10) with
        | nil => exact absurd hd (myDigits_ne_nil _)
        | cons a l => simp
      simp only [List.length_singleton, List.length_append] at hlen
      omega
    · rw [myDigits_ge10 hn, myDigits_ge10 hm] at h
      have := List.append_inj' h (by simp)
      have hdiv : n / 10 = m / 10 :=
        ih (n / 10) (Nat.div_lt_self (by omega) (by omega)) (m / 10) this.1
      have hmod : n % 10 = m % 10 := by
        have := this.2
        simp only [List.cons.injEq] at this
        exact digitChar_inj10 (Nat.mod_lt _ (by omega)) (Nat.mod_lt _ (by omega)) this.1
      omega

theorem toDigitsCore_eq_myDigits :
    ∀ fuel n ds, n + 1 ≤ fuel → Nat.toDigitsCore 10 fuel n ds = myDigits n ++ ds := by
  intro fuel
  induction fuel with
  | zero => intro n ds h; omega
  | succ f ihf =>
    intro n ds hfuel
    show (if n / 10 = 0 then Nat.digitChar (n % 10) :: ds
          else Nat.toDigitsCore 10 f (n / 10) (Nat.digitChar (n % 10) :: ds)) = _
    by_cases h10 : n / 10 = 0
    · have hn : n < 10 := (Nat.div_eq_zero_iff (by omega)).1 h10
      rw [if_pos h10, myDigits_lt10 hn, Nat.mod_eq_of_lt hn]
      rfl
    · have hn : ¬ n < 10 := by
        intro hlt
        exact h10 (Nat.div_eq_of_lt hlt)
      have hstep : n / 10 + 1 ≤ f := by
        have hlt : n / 10 < n := Nat.div_lt_self (by omega) (by omega)
        omega
      rw [if_neg h10, ihf (n / 10) (Nat.digitChar (n % 10) :: ds) hstep]
      rw [myDigits_ge10 hn]
      simp

theorem natRepr_data (n : Nat) : (Nat.repr n).data = myDigits n := by
  show (Nat.toDigits 10 n).asString.data = myDigits n
  show Nat.toDigitsCore 10 (n + 1) n [] = myDigits n
  rw [toDigitsCore_eq_myDigits (n + 1) n [] (Nat.le_refl _)]
  simp

theorem natRepr_inj {n m : Nat} (h : Nat.repr n = Nat.repr m) : n = m := by
  have := congrArg String.data h
  rw [natRepr_data, natRepr_data] at this
  exact myDigits_inj n m this

theorem natRepr_mem_digitList (n : Nat) : ∀ c ∈ (Nat.repr n).data, c ∈ digitList := by
  rw [natRepr_data]; exact myDigits_mem_digitList n

theorem toString_nat_eq (n : Nat) : toString n = Nat.repr n := rfl

theorem candName_zero (b : String) : candName b 0 = b := rfl

theorem underscore_data : ("_" : String).data = ['_'] := by decide

theorem candName_pos_data (b : String) {c : Nat} (h : c ≠ 0) :
    (candName b c).data = b.data ++ '_' :: (Nat.repr c).data := by
  unfold candName
  rw [if_neg h]
  rw [toString_nat_eq]
  simp only [String.data_append, underscore_data]
  simp

theorem dot_not_digit : ('.' ∈ digitList) = False := by decide

theorem digitsDotSplit :
    ∀ (xs ys u v : List Char), (∀ c ∈ xs, c ∈ digitList) → (∀ c ∈ ys, c ∈ digitList) →
      u.head? = some '.' → v.head? = some '.' → xs ++ u = ys ++ v → xs = ys ∧ u = v := by
  intro xs
  induction xs with
  | nil =>
    intro ys u v _ hys hu hv h
    cases ys with
    | nil => simpa using h
    | cons y ys' =>
      exfalso
      simp only [List.nil_append, List.cons_append] at h
      rw [h] at hu
      simp only [List.head?_cons, Option.some.injEq] at hu
      have hmem : y ∈ digitList := hys y (List.mem_cons_self y ys')
      rw [hu] at hmem
      exact (dot_not_digit ▸ hmem)
  | cons x xs' ih =>
    intro ys u v hxs hys hu hv h
    cases ys with
    | nil =>
      exfalso
      simp only [List.nil_append, List.cons_append] at h
      rw [← h] at hv
      simp only [List.head?_cons, Option.some.injEq] at hv
      have hmem : x ∈ digitList := hxs x (List.mem_cons_self x xs')
      rw [hv] at hmem
      exact (dot_not_digit ▸ hmem)
    | cons y ys' =>
      simp only [List.cons_append, List.cons.injEq] at h
      obtain ⟨rfl, h2⟩ := h
      have := ih ys' u v (fun c hc => hxs c (List.mem_cons_of_mem _ hc))
        (fun c hc => hys c (List.mem_cons_of_mem _ hc)) hu hv h2
      exact ⟨by rw [this.1], this.2⟩

theorem out_ext_head : ∀ e ∈ OUT_EXTS, e.data.head? = some '.' := by decide

theorem candExt_inj {b : String} {c₁ c₂ : Nat} {e₁ e₂ : String}
    (he₁ : e₁ ∈ OUT_EXTS) (he₂ : e₂ ∈ OUT_EXTS)
    (h : candName b c₁ ++ e₁ = candName b c₂ ++ e₂) : c₁ = c₂ := by
  have hd := congrArg String.data h
  simp only [String.data_append] at hd
  by_cases h1 : c₁ = 0 <;> by_cases h2 : c₂ = 0
  · exact h1.trans h2.symm
  · exfalso
    subst h1
    rw [candName_pos_data b h2] at hd
    rw [candName_zero] at hd
    rw [List.append_assoc] at hd
    have he := List.append_cancel_left hd
    have hh := congrArg List.head? he
    rw [out_ext_head e₁ he₁] at hh
    simp at hh
  · exfalso
    subst h2
    rw [candName_pos_data b h1] at hd
    rw [candName_zero] at hd
    rw [List.append_assoc] at hd
    have he := List.append_cancel_left hd.symm
    have hh := congrArg List.head? he
    rw [out_ext_head e₂ he₂] at hh
    simp at hh
  · rw [candName_pos_data b h1, candName_pos_data b h2] at hd
    rw [List.append_assoc, List.append_assoc] at hd
    have he := List.append_cancel_left hd
    simp only [List.cons_append, List.cons.injEq, true_and] at he
    have := digitsDotSplit (Nat.repr c₁).data (Nat.repr c₂).data e₁.data e₂.data
      (natRepr_mem_digitList c₁) (natRepr_mem_digitList c₂)
      (out_ext_head e₁ he₁) (out_ext_head e₂ he₂) he
    exact natRepr_inj (string_eq_of_data this.1)

theorem candName_inj {b : String} {c₁ c₂ : Nat} (h : candName b c₁ = candName b c₂) :
    c₁ = c₂ := by
  have hd := congrArg String.data h
  by_cases h1 : c₁ = 0 <;> by_cases h2 : c₂ = 0
  · exact h1.trans h2.symm
  · exfalso
    subst h1
    rw [candName_pos_data b h2, candName_zero] at hd
    have := congrArg List.length hd
    simp at this
  · exfalso
    subst h2
    rw [candName_pos_data b h1, candName_zero] at hd
    have := congrArg List.length hd
    simp at this
  · rw [candName_pos_data b h1, candName_pos_data b h2] at hd
    have he := List.append_cancel_left hd
    simp only [List.cons.injEq, true_and] at he
    exact natRepr_inj (string_eq_of_data he)

theorem allocLoop_sound (D : List String) (b : String) :
    ∀ fuel c, (∃ k, k < fuel ∧ collides D (candName b (c + k)) = false) →
      ∃ c', allocLoop D b fuel c = some c' ∧ c ≤ c' ∧
        collides D (candName b c') = false := by
  intro fuel
  induction fuel with
  | zero =>
    intro c h
    obtain ⟨k, hk, _⟩ := h
    omega
  | succ f ih =>
    intro c h
    cases hcol : collides D (candName b c) with
    | false =>
      refine ⟨c, ?_, Nat.le_refl c, hcol⟩
      show (if collides D (candName b c) then allocLoop D b f (c + 1) else some c) = some c
      rw [hcol]
      simp
    | true =>
      obtain ⟨k, hk, hfree⟩ := h
      have hk0 : k ≠ 0 := by
        intro h0
        rw [h0, Nat.add_zero] at hfree
        rw [hcol] at hfree
        exact Bool.noConfusion hfree
      obtain ⟨c', hc1, hc2, hc3⟩ := ih (c + 1) ⟨k - 1, by omega, by
        have : c + 1 + (k - 1) = c + k := by omega
        rw [this]
        exact hfree⟩
      refine ⟨c', ?_, by omega, hc3⟩
      show (if collides D (candName b c) then allocLoop D b f (c + 1) else some c) = some c'
      rw [hcol]
      simpa using hc1

theorem exists_free_counter (D : List String) (b : String) (c : Nat) :
    ∃ k, k < allocFuel D ∧ collides D (candName b (c + k)) = false := by
  by_contra hall
  push_neg at hall
  have hcol : ∀ k : Fin (allocFuel D), ∃ e, e ∈ OUT_EXTS ∧ (candName b (c + ↑k) ++ e) ∈ D := by
    intro k
    have hne := hall ↑k k.isLt
    have htrue : collides D (candName b (c + ↑k)) = true := by
      cases hx : collides D (candName b (c + ↑k)) with
      | false => exact absurd hx hne
      | true => rfl
    simpa [collides, List.any_eq_true] using htrue
  choose ext hext hmem using hcol
  have hinj : Function.Injective (fun k : Fin (allocFuel D) => candName b (c + ↑k) ++ ext k) := by
    intro k₁ k₂ h
    have := candExt_inj (hext k₁) (hext k₂) h
    apply Fin.ext
    omega
  have hsub : Finset.image (fun k : Fin (allocFuel D) => candName b (c + ↑k) ++ ext k)
      Finset.univ ⊆ D.toFinset := by
    intro x hx
    simp only [Finset.mem_image] at hx
    obtain ⟨k, _, rfl⟩ := hx
    exact List.mem_toFinset.2 (hmem k)
  have hcard := Finset.card_le_card hsub
  rw [Finset.card_image_of_injective _ hinj, Finset.card_univ, Fintype.card_fin] at hcard
  have hDle := List.toFinset_card_le (l := D)
  unfold allocFuel at hcard
  omega

theorem allocLoop_spec (D : List String) (b : String) (c : Nat) :
    ∃ c', allocLoop D b (allocFuel D) c = some c' ∧ c ≤ c' ∧
      collides D (candName b c') = false :=
  allocLoop_sound D b (allocFuel D) c (exists_free_counter D b c)

theorem get_unique_stem_eq (baseStem : String) (R : List (String × Nat)) (D : List String) :
    ∃ c', allocLoop D (sanitize_stem baseStem) (allocFuel D)
        ((lookupReg R (sanitize_stem baseStem)).getD 0) = some c' ∧
      get_unique_stem baseStem R D =
        (candName (sanitize_stem baseStem) c', insertReg R (sanitize_stem baseStem) c') ∧
      (lookupReg R (sanitize_stem baseStem)).getD 0 ≤ c' ∧
      collides D (candName (sanitize_stem baseStem) c') = false := by
  obtain ⟨c', h1, h2, h3⟩ := allocLoop_spec D (sanitize_stem baseStem)
    ((lookupReg R (sanitize_stem baseStem)).getD 0)
  refine ⟨c', h1, ?_, h2, h3⟩
  simp only [get_unique_stem]
  rw [h1]
  rfl

theorem collides_false_not_mem {D : List String} {cand : String}
    (h : collides D cand = false) : ∀ e ∈ OUT_EXTS, (cand ++ e) ∉ D := by
  intro e he hmem
  have : collides D cand = true := by
    simp only [collides, List.any_eq_true]
    exact ⟨e, he, by simpa using hmem⟩
  rw [h] at this
  exact Bool.noConfusion this

theorem get_unique_stem_fresh (baseStem : String) (R : List (String × Nat)) (D : List String) :
    ∀ e ∈ OUT_EXTS, ((get_unique_stem baseStem R D).1 ++ e) ∉ D := by
  obtain ⟨c', _, heq, _, hcol⟩ := get_unique_stem_eq baseStem R D
  rw [heq]
  exact collides_false_not_mem hcol

theorem lookupReg_insertReg_self (R : List (String × Nat)) (b : String) (c : Nat) :
    lookupReg (insertReg R b c) b = some c := by
  induction R with
  | nil => simp [insertReg, lookupReg]
  | cons p r ih =>
    obtain ⟨k, v⟩ := p
    by_cases hk : k = b <;> simp [insertReg, lookupReg, hk, ih]

theorem underscore_not_illegal : isIllegal '_' = false := by decide

theorem subIllegal_no_illegal :
    ∀ (l : List Char) (prev : Bool), ∀ c ∈ subIllegal prev l, isIllegal c = false := by
  intro l
  induction l with
  | nil => intro prev c hc; simp [subIllegal] at hc
  | cons x xs ih =>
    intro prev c hc
    by_cases hx : isIllegal x = true
    · rw [show subIllegal prev (x :: xs) =
          (if prev then subIllegal true xs else '_' :: subIllegal true xs) by
        simp [subIllegal, hx]] at hc
      cases prev with
      | true => exact ih true c (by simpa using hc)
      | false =>
        simp only [if_neg Bool.false_ne_true, List.mem_cons] at hc
        rcases hc with rfl | hc
        · exact underscore_not_illegal
        · exact ih true c hc
    · rw [show subIllegal prev (x :: xs) = x :: subIllegal false xs by
        simp [subIllegal, hx]] at hc
      rcases List.mem_cons.1 hc with rfl | hc
      · exact Bool.eq_false_iff.2 hx
      · exact ih false c hc

theorem head?_dropWhile_false {p : α → Bool} {l : List α} {c : α}
    (h : (l.dropWhile p).head? = some c) : p c = false := by
  have := List.head?_dropWhile_not p l
  rw [h] at this
  exact this

theorem getLast?_isSome_of_ne_nil {l : List α} (h : l ≠ []) : ∃ x, l.getLast? = some x := by
  cases l with
  | nil => exact absurd rfl h
  | cons a as => exact ⟨as.getLastD a, by rw [List.getLast?_cons]; simp⟩

theorem getLast?_dropWhile {p : α → Bool} {l : List α} (h : l.dropWhile p ≠ []) :
    (l.dropWhile p).getLast? = l.getLast? := by
  obtain ⟨t, ht⟩ := List.dropWhile_suffix p (l := l)
  conv_rhs => rw [← ht]
  rw [List.getLast?_append]
  obtain ⟨x, hx⟩ := getLast?_isSome_of_ne_nil h
  rw [hx]
  rfl

theorem pyStrip_subset {l : List Char} : ∀ c ∈ pyStrip l, c ∈ l := by
  intro c hc
  unfold pyStrip at hc
  rw [List.mem_reverse] at hc
  have h1 := List.dropWhile_subset pyIsSpace hc
  rw [List.mem_reverse] at h1
  exact List.dropWhile_subset pyIsSpace h1

theorem pyStrip_head {l : List Char} {c : Char} (h : (pyStrip l).head? = some c) :
    pyIsSpace c = false := by
  unfold pyStrip at h
  rw [List.head?_reverse] at h
  have hne : (l.dropWhile pyIsSpace).reverse.dropWhile pyIsSpace ≠ [] := by
    intro hnil
    rw [hnil] at h
    simp at h
  rw [getLast?_dropWhile hne, List.getLast?_reverse] at h
  exact head?_dropWhile_false h

theorem pyStrip_getLast {l : List Char} {c : Char} (h : (pyStrip l).getLast? = some c) :
    pyIsSpace c = false := by
  unfold pyStrip at h
  rw [List.getLast?_reverse] at h
  exact head?_dropWhile_false h

/-- C8: sanitization replaces every occurrence of the illegal characters and
trims surrounding whitespace: for every input string, the base stem returned
by `sanitize_stem` contains none of the illegal characters and has neither a
leading nor a trailing whitespace character. -/
theorem c8_sanitize_clean (s : String) :
    ((sanitize_stem s).data.all (fun c => !isIllegal c)) = true ∧
    ((sanitize_stem s).data.head?.all (fun c => !pyIsSpace c)) = true ∧
    ((sanitize_stem s).data.getLast?.all (fun c => !pyIsSpace c)) = true := by
  have hdata : (sanitize_stem s).data = pyStrip (subIllegal false s.data) := rfl
  refine ⟨?_, ?_, ?_⟩
  · rw [List.all_eq_true]
    intro c hc
    rw [hdata] at hc
    have := subIllegal_no_illegal s.data false c (pyStrip_subset c hc)
    simp [this]
  · rw [hdata]
    cases hh : (pyStrip (subIllegal false s.data)).head? with
    | none => rfl
    | some c =>
      have := pyStrip_head hh
      simp [Option.all, this]
  · rw [hdata]
    cases hh : (pyStrip (subIllegal false s.data)).getLast? with
    | none => rfl
    | some c =>
      have := pyStrip_getLast hh
      simp [Option.all, this]

theorem image_not_mov {s : String} (h : hasImageExt s = true) : isMovName s = false := by
  cases hm : isMovName s with
  | false => rfl
  | true =>
    exfalso
    simp only [hasImageExt, List.any_eq_true] at h
    obtain ⟨e, he, hsuf⟩ := h
    simp only [endsWithStr, List.isSuffixOf_iff_suffix] at hsuf
    simp only [isMovName, endsWithStr, List.isSuffixOf_iff_suffix] at hm
    have hor := List.suffix_or_suffix_of_suffix hsuf hm
    simp only [IMAGE_EXTS, List.mem_cons, List.not_mem_nil, or_false] at he
    rcases he with rfl | rfl | rfl <;> rcases hor with hx | hx <;> revert hx <;> decide

theorem find?_eq_head_filter (p : α → Bool) (l : List α) : l.find? p = (l.filter p).head? := by
  induction l with
  | nil => rfl
  | cons a as ih =>
    cases h : p a with
    | true =>
      rw [List.find?_cons_of_pos _ h, List.filter_cons_of_pos h]
      rfl
    | false =>
      rw [List.find?_cons_of_neg _ (by simp [h]), List.filter_cons_of_neg (by simp [h])]
      exact ih

theorem scanMembers_eq :
    ∀ (l : List Member) (img mov : Option Member), (img.isSome && mov.isSome) = false →
      scanMembers l img mov =
        ((match img with
          | some i => some i
          | none => (l.filter (fun m => !isExcluded m)).find? (fun m => hasImageExt (nameLower m))),
         (match mov with
          | some v => some v
          | none => (l.filter (fun m => !isExcluded m)).find?
              (fun m => !hasImageExt (nameLower m) && isMovName (nameLower m)))) := by
  intro l
  induction l with
  | nil =>
    intro img mov _
    cases img <;> cases mov <;> simp [scanMembers]
  | cons m rest ih =>
    intro img mov hb
    cases hex : isExcluded m with
    | true =>
      have hscan : scanMembers (m :: rest) img mov = scanMembers rest img mov := by
        simp [scanMembers, hex]
      have hfil : (m :: rest).filter (fun x => !isExcluded x)
          = rest.filter (fun x => !isExcluded x) :=
        List.filter_cons_of_neg (by simp [hex])
      rw [hscan, hfil]
      exact ih img mov hb
    | false =>
      have hfil : (m :: rest).filter (fun x => !isExcluded x)
          = m :: rest.filter (fun x => !isExcluded x) :=
        List.filter_cons_of_pos (by simp [hex])
      rw [hfil]
      cases himg : hasImageExt (nameLower m) with
      | true =>
        have hmovm : (!hasImageExt (nameLower m) && isMovName (nameLower m)) = false := by
          rw [himg]
          rfl
        have hfind1 : (m :: rest.filter (fun x => !isExcluded x)).find?
            (fun x => hasImageExt (nameLower x)) = some m := List.find?_cons_of_pos _ himg
        have hfind2 : (m :: rest.filter (fun x => !isExcluded x)).find?
            (fun x => !hasImageExt (nameLower x) && isMovName (nameLower x))
            = (rest.filter (fun x => !isExcluded x)).find?
              (fun x => !hasImageExt (nameLower x) && isMovName (nameLower x)) :=
          List.find?_cons_of_neg _ (by simp [hmovm])
        rw [hfind1, hfind2]
        cases mov with
        | some v =>
          have himgnone : img = none := by
            cases img with
            | none => rfl
            | some i => simp at hb
          subst himgnone
          have hstep : scanMembers (m :: rest) none (some v) = (some m, some v) := by
            simp [scanMembers, hex, himg]
          rw [hstep]
        | none =>
          have hstep : scanMembers (m :: rest) img none
              = scanMembers rest (some (img.getD m)) none := by
            simp [scanMembers, hex, himg]
          rw [hstep, ih (some (img.getD m)) none (by simp)]
          cases img with
          | none => simp
          | some i => simp
      | false =>
        cases hmov : isMovName (nameLower m) with
        | true =>
          have hmovm : (!hasImageExt (nameLower m) && isMovName (nameLower m)) = true := by
            rw [hmov, himg]
            rfl
          have hfind1 : (m :: rest.filter (fun x => !isExcluded x)).find?
              (fun x => hasImageExt (nameLower x))
              = (rest.filter (fun x => !isExcluded x)).find?
                (fun x => hasImageExt (nameLower x)) :=
            List.find?_cons_of_neg _ (by simp [himg])
          have hfind2 : (m :: rest.filter (fun x => !isExcluded x)).find?
              (fun x => !hasImageExt (nameLower x) && isMovName (nameLower x)) = some m :=
            List.find?_cons_of_pos _ hmovm
          rw [hfind1, hfind2]
          cases img with
          | some i =>
            have hmovnone : mov = none := by
              cases mov with
              | none => rfl
              | some v => simp at hb
            subst hmovnone
            have hstep : scanMembers (m :: rest) (some i) none = (some i, some m) := by
              simp [scanMembers, hex, himg, hmov]
            rw [hstep]
          | none =>
            have hstep : scanMembers (m :: rest) none mov
                = scanMembers rest none (some (mov.getD m)) := by
              simp [scanMembers, hex, himg, hmov]
            rw [hstep, ih none (some (mov.getD m)) (by simp)]
            cases mov with
            | none => simp
            | some v => simp
        | false =>
          have hfind1 : (m :: rest.filter (fun x => !isExcluded x)).find?
              (fun x => hasImageExt (nameLower x))
              = (rest.filter (fun x => !isExcluded x)).find?
                (fun x => hasImageExt (nameLower x)) :=
            List.find?_cons_of_neg _ (by simp [himg])
          have hfind2 : (m :: rest.filter (fun x => !isExcluded x)).find?
              (fun x => !hasImageExt (nameLower x) && isMovName (nameLower x))
              = (rest.filter (fun x => !isExcluded x)).find?
                (fun x => !hasImageExt (nameLower x) && isMovName (nameLower x)) :=
            List.find?_cons_of_neg _ (by simp [himg, hmov])
          rw [hfind1, hfind2]
          have hstep : scanMembers (m :: rest) img mov = scanMembers rest img mov := by
            simp [scanMembers, hex, himg, hmov, hb]
          rw [hstep]
          exact ih img mov hb

theorem scanMembers_none_eq (l : List Member) :
    scanMembers l none none =
      ((l.filter (fun m => !isExcluded m)).find? (fun m => hasImageExt (nameLower m)),
       (l.filter (fun m => !isExcluded m)).find?
         (fun m => !hasImageExt (nameLower m) && isMovName (nameLower m))) := by
  have := scanMembers_eq l none none (by simp)
  simpa using this

theorem movPred_eq_isMovName (m : Member) :
    (!hasImageExt (nameLower m) && isMovName (nameLower m)) = isMovName (nameLower m) := by
  cases h : hasImageExt (nameLower m) with
  | true => rw [image_not_mov h]; simp
  | false => simp

theorem scanMembers_mov_eq (l : List Member) :
    (scanMembers l none none).2
      = (l.filter (fun m => !isExcluded m)).find? (fun m => isMovName (nameLower m)) := by
  rw [scanMembers_none_eq]
  show (l.filter (fun m => !isExcluded m)).find?
      (fun m => !hasImageExt (nameLower m) && isMovName (nameLower m)) = _
  rw [funext movPred_eq_isMovName]

theorem scanMembers_img_eq (l : List Member) :
    (scanMembers l none none).1
      = (l.filter (fun m => !isExcluded m)).find? (fun m => hasImageExt (nameLower m)) := by
  rw [scanMembers_none_eq]

theorem toNat_ofNatAux {n : Nat} (h : n.isValidChar) : (Char.ofNatAux n h).toNat = n := rfl

theorem toLower_eq_dot {c : Char} (h : Char.toLower c = '.') : c = '.' := by
  have h' : (if c.toNat ≥ 65 ∧ c.toNat ≤ 90 then Char.ofNat (c.toNat + 32) else c) = '.' := h
  by_cases hcond : c.toNat ≥ 65 ∧ c.toNat ≤ 90
  · exfalso
    obtain ⟨hc1, hc2⟩ := hcond
    rw [if_pos ⟨hc1, hc2⟩] at h'
    have hvalid : (c.toNat + 32).isValidChar := Or.inl (by omega)
    rw [Char.ofNat, dif_pos hvalid] at h'
    have hnat := congrArg Char.toNat h'
    rw [toNat_ofNatAux hvalid] at hnat
    have hdotnat : ('.' : Char).toNat = 46 := by decide
    rw [hdotnat] at hnat
    omega
  · rwa [if_neg hcond] at h'

theorem toLower_dot : Char.toLower '.' = '.' := by decide

theorem map_toLower_split {n t er : List Char}
    (h : List.map Char.toLower n = t ++ '.' :: er) :
    ∃ pre ds, n = pre ++ '.' :: ds ∧ List.map Char.toLower pre = t ∧
      List.map Char.toLower ds = er := by
  induction n generalizing t with
  | nil =>
    exfalso
    have := congrArg List.length h
    simp at this
    omega
  | cons c cs ih =>
    cases t with
    | nil =>
      simp only [List.map_cons, List.nil_append, List.cons.injEq] at h
      obtain ⟨hc, hcs⟩ := h
      refine ⟨[], cs, ?_, rfl, hcs⟩
      rw [toLower_eq_dot hc]
      simp
    | cons a t' =>
      simp only [List.map_cons, List.cons_append, List.cons.injEq] at h
      obtain ⟨hc, hcs⟩ := h
      obtain ⟨pre, ds, h1, h2, h3⟩ := ih hcs
      refine ⟨c :: pre, ds, ?_, ?_, h3⟩
      · rw [List.cons_append, ← h1]
      · simp [h2, hc]

theorem posixSuffix_lower {nm : String} {er : List Char}
    (her : er ≠ []) (hdot : '.' ∉ er)
    (hsuf : ('.' :: er) <:+ nm.data.map Char.toLower)
    (hhead : (nm.data.map Char.toLower).head? ≠ some '.') :
    (lowerStr (posixSuffix nm)).data = '.' :: er := by
  obtain ⟨t, ht⟩ := hsuf
  obtain ⟨pre, ds, hn, hmpre, hmds⟩ := map_toLower_split ht.symm
  have hpre : pre ≠ [] := by
    intro hnil
    rw [hnil, List.nil_append] at hn
    rw [hn] at hhead
    simp only [List.map_cons, List.head?_cons, toLower_dot] at hhead
    exact hhead rfl
  have hdots : '.' ∉ ds := by
    intro hmem
    have : Char.toLower '.' ∈ List.map Char.toLower ds := List.mem_map_of_mem _ hmem
    rw [hmds, toLower_dot] at this
    exact hdot this
  have hrev : nm.data.reverse = ds.reverse ++ '.' :: pre.reverse := by
    rw [hn]
    simp [List.reverse_append]
  have htake : nm.data.reverse.takeWhile (fun c => c != '.') = ds.reverse := by
    rw [hrev]
    rw [List.takeWhile_append_of_pos (by
      intro a ha
      rw [List.mem_reverse] at ha
      have : a ≠ '.' := fun hEq => hdots (hEq ▸ ha)
      simp [this])]
    rw [List.takeWhile_cons]
    simp
  have hpost : (nm.data.reverse.takeWhile (fun c => c != '.')).reverse = ds := by
    rw [htake, List.reverse_reverse]
  have hmemdot : '.' ∈ nm.data := by
    rw [hn]
    exact List.mem_append_right _ (List.mem_cons_self _ _)
  have hlen : nm.data.length = pre.length + 1 + ds.length := by
    rw [hn, List.length_append, List.length_cons]
    omega
  have hlends : ds.length = er.length := by
    have := congrArg List.length hmds
    simpa using this
  have hlener : 1 ≤ er.length := by
    cases er with
    | nil => exact absurd rfl her
    | cons x xs => simp
  have hprelen : 0 < pre.length := List.length_pos.2 hpre
  have hsufeq : posixSuffix nm = ⟨'.' :: ds⟩ := by
    simp only [posixSuffix]
    rw [hpost]
    rw [if_pos ⟨hmemdot, by omega, by omega⟩]
  rw [hsufeq]
  show List.map Char.toLower ('.' :: ds) = '.' :: er
  rw [List.map_cons, toLower_dot, hmds]

theorem getLastD_mem {l : List α} {d : α} (h : l ≠ []) : l.getLastD d ∈ l := by
  obtain ⟨x, hx⟩ := getLast?_isSome_of_ne_nil h
  rw [List.getLastD_eq_getLast?, hx]
  exact List.mem_of_mem_getLast? (by rw [hx]; rfl)

theorem not_startsWith_dot_head {s : String} (h : strStartsWith s "." = false) :
    s.data.head? ≠ some '.' := by
  intro hh
  cases hd : s.data with
  | nil => rw [hd] at hh; simp at hh
  | cons a as =>
    rw [hd] at hh
    simp only [List.head?_cons, Option.some.injEq] at hh
    subst hh
    simp only [strStartsWith] at h
    rw [hd] at h
    simp [List.isPrefixOf] at h

theorem empty_no_imageExt : hasImageExt "" = false := by decide

theorem image_sub_out : ∀ e ∈ IMAGE_EXTS, e ∈ OUT_EXTS := by decide

theorem mov_mem_out : (".mov" : String) ∈ OUT_EXTS := by decide

theorem image_ne_movext : ∀ e ∈ IMAGE_EXTS, e ≠ ".mov" := by decide

theorem lower_posixSuffix_eq {nm e : String}
    (he : e ∈ IMAGE_EXTS)
    (hsuf : e.data <:+ nm.data.map Char.toLower)
    (hhead : (nm.data.map Char.toLower).head? ≠ some '.') :
    lowerStr (posixSuffix nm) = e := by
  have h3 : ∃ er, e.data = '.' :: er ∧ er ≠ [] ∧ '.' ∉ er := by
    simp only [IMAGE_EXTS, List.mem_cons, List.not_mem_nil, or_false] at he
    rcases he with rfl | rfl | rfl
    · exact ⟨['h', 'e', 'i', 'c'], by decide, by decide, by decide⟩
    · exact ⟨['j', 'p', 'g'], by decide, by decide, by decide⟩
    · exact ⟨['j', 'p', 'e', 'g'], by decide, by decide, by decide⟩
  obtain ⟨er, hed, her, hdot⟩ := h3
  rw [hed] at hsuf
  apply string_eq_of_data
  rw [posixSuffix_lower her hdot hsuf hhead, hed]

theorem selected_image_ext {l : List Member} {img : Member}
    (h : (scanMembers l none none).1 = some img) :
    isExcluded img = false ∧ hasImageExt (nameLower img) = true ∧
    lowerStr (posixSuffix (posixName img.name)) ∈ IMAGE_EXTS := by
  rw [scanMembers_img_eq] at h
  have hpred : hasImageExt (nameLower img) = true :=
    List.find?_some (p := fun m => hasImageExt (nameLower m)) h
  have hmem := List.mem_of_find?_eq_some (p := fun m => hasImageExt (nameLower m)) h
  rw [List.mem_filter] at hmem
  have hexc : isExcluded img = false := by
    have := hmem.2
    cases hx : isExcluded img with
    | false => rfl
    | true => rw [hx] at this; simp at this
  refine ⟨hexc, hpred, ?_⟩
  have hparts : posixParts img.name ≠ [] := by
    intro hnil
    have hname : posixName img.name = "" := by
      simp [posixName, hnil]
    rw [nameLower, hname] at hpred
    have : lowerStr "" = "" := rfl
    rw [this, empty_no_imageExt] at hpred
    exact Bool.noConfusion hpred
  have hnmem : posixName img.name ∈ posixParts img.name := getLastD_mem hparts
  have hlowmem : lowerStr (posixName img.name) ∈ (posixParts img.name).map lowerStr :=
    List.mem_map_of_mem _ hnmem
  have hnostart : strStartsWith (lowerStr (posixName img.name)) "." = false := by
    simp only [isExcluded, Bool.or_eq_false_iff, List.any_eq_false] at hexc
    have := hexc.2 _ hlowmem
    cases hx : strStartsWith (lowerStr (posixName img.name)) "." with
    | false => rfl
    | true => rw [hx] at this; simp at this
  have hhead : ((posixName img.name).data.map Char.toLower).head? ≠ some '.' :=
    not_startsWith_dot_head hnostart
  simp only [nameLower, hasImageExt, List.any_eq_true] at hpred
  obtain ⟨e, he, hsuf⟩ := hpred
  simp only [endsWithStr, List.isSuffixOf_iff_suffix] at hsuf
  have hsuf' : e.data <:+ (posixName img.name).data.map Char.toLower := hsuf
  rw [lower_posixSuffix_eq he hsuf' hhead]
  exact he

theorem selected_mov_props {l : List Member} {mov : Member}
    (h : (scanMembers l none none).2 = some mov) :
    isExcluded mov = false ∧ isMovName (nameLower mov) = true := by
  rw [scanMembers_mov_eq] at h
  have hpred : isMovName (nameLower mov) = true :=
    List.find?_some (p := fun m => isMovName (nameLower m)) h
  have hmem := List.mem_of_find?_eq_some (p := fun m => isMovName (nameLower m)) h
  rw [List.mem_filter] at hmem
  refine ⟨?_, hpred⟩
  have := hmem.2
  cases hx : isExcluded mov with
  | false => rfl
  | true => rw [hx] at this; simp at this

theorem processFile_corrupt_eq (st : RunState) (stem : String) :
    processFile st ⟨stem, Archive.corrupt⟩ =
      ({ st with registry := (get_unique_stem stem st.registry (diskNames st.disk)).2,
                 failed := st.failed + 1 },
       (get_unique_stem stem st.registry (diskNames st.disk)).1, ExtResult.corrupt) := rfl

theorem processFile_skipped_eq (st : RunState) (stem : String) (members : List Member)
    (h : (scanMembers members none none).1 = none ∨ (scanMembers members none none).2 = none) :
    processFile st ⟨stem, Archive.valid members⟩ =
      ({ st with registry := (get_unique_stem stem st.registry (diskNames st.disk)).2,
                 failed := st.failed + 1 },
       (get_unique_stem stem st.registry (diskNames st.disk)).1,
       ExtResult.skippedIncomplete) := by
  rcases hscan : scanMembers members none none with ⟨o1, o2⟩
  rw [hscan] at h
  cases o1 with
  | none => cases o2 <;> simp [processFile, hscan]
  | some i =>
    cases o2 with
    | none => simp [processFile, hscan]
    | some v => simp at h

theorem processFile_success_eq (st : RunState) (stem : String) (members : List Member)
    {img mov : Member} (hscan : scanMembers members none none = (some img, some mov)) :
    processFile st ⟨stem, Archive.valid members⟩ =
      ({ st with
          registry := (get_unique_stem stem st.registry (diskNames st.disk)).2,
          disk := ((get_unique_stem stem st.registry (diskNames st.disk)).1 ++ ".mov",
              mov.content)
            :: ((get_unique_stem stem st.registry (diskNames st.disk)).1
                ++ lowerStr (posixSuffix (posixName img.name)), img.content) :: st.disk,
          succ := st.succ + 1 },
       (get_unique_stem stem st.registry (diskNames st.disk)).1, ExtResult.success) := by
  simp [processFile, hscan, writeFile]

theorem processFile_stem (st : RunState) (f : LivpFile) :
    (processFile st f).2.1 = (get_unique_stem f.stem st.registry (diskNames st.disk)).1 := by
  obtain ⟨stem, ar⟩ := f
  cases ar with
  | corrupt => rfl
  | valid members =>
    rcases hscan : scanMembers members none none with ⟨o1, o2⟩
    cases o1 <;> cases o2 <;> simp [processFile, hscan]

theorem processFile_counts (st : RunState) (f : LivpFile) :
    (processFile st f).1.succ + (processFile st f).1.failed = st.succ + st.failed + 1 := by
  obtain ⟨stem, ar⟩ := f
  cases ar with
  | corrupt =>
    rw [processFile_corrupt_eq]
    show st.succ + (st.failed + 1) = st.succ + st.failed + 1
    omega
  | valid members =>
    rcases hscan : scanMembers members none none with ⟨o1, o2⟩
    cases o1 <;> cases o2 <;> simp [processFile, hscan] <;> omega

theorem processFile_stem_fresh (st : RunState) (f : LivpFile) :
    ∀ e ∈ OUT_EXTS, ((processFile st f).2.1 ++ e) ∉ diskNames st.disk := by
  rw [processFile_stem]
  exact get_unique_stem_fresh _ _ _

theorem processFile_disk_cases (st : RunState) (f : LivpFile) :
    (processFile st f).1.disk = st.disk ∨
    ∃ bs1 bs2 e, e ∈ OUT_EXTS ∧
      (processFile st f).1.disk =
        ((processFile st f).2.1 ++ ".mov", bs2)
          :: ((processFile st f).2.1 ++ e, bs1) :: st.disk := by
  obtain ⟨stem, ar⟩ := f
  cases ar with
  | corrupt => exact Or.inl rfl
  | valid members =>
    rcases hscan : scanMembers members none none with ⟨o1, o2⟩
    cases o1 with
    | none =>
      left
      rw [processFile_skipped_eq st stem members (Or.inl (by rw [hscan]))]
    | some i =>
      cases o2 with
      | none =>
        left
        rw [processFile_skipped_eq st stem members (Or.inr (by rw [hscan]))]
      | some v =>
        right
        refine ⟨i.content, v.content, lowerStr (posixSuffix (posixName i.name)), ?_, ?_⟩
        · have := selected_image_ext
            (show (scanMembers members none none).1 = some i from by rw [hscan])
          exact image_sub_out _ this.2.2
        · rw [processFile_success_eq st stem members hscan]

theorem diskNames_cons (nm : String) (c : List Nat) (d : Disk) :
    diskNames ((nm, c) :: d) = nm :: diskNames d := rfl

theorem lookupDisk_some_mem {d : Disk} {nm : String} {bs : List Nat}
    (h : lookupDisk d nm = some bs) : nm ∈ diskNames d := by
  induction d with
  | nil => simp [lookupDisk] at h
  | cons p r ih =>
    obtain ⟨k, v⟩ := p
    by_cases hk : k = nm
    · rw [diskNames_cons, hk]
      exact List.mem_cons_self _ _
    · rw [diskNames_cons]
      refine List.mem_cons_of_mem _ (ih ?_)
      rw [show lookupDisk ((k, v) :: r) nm = lookupDisk r nm from by simp [lookupDisk, hk]] at h
      exact h

theorem lookupDisk_cons_ne {d : Disk} {k nm : String} {v : List Nat} (h : k ≠ nm) :
    lookupDisk ((k, v) :: d) nm = lookupDisk d nm := by
  simp [lookupDisk, h]

theorem processFile_preserves_lookup (st : RunState) (f : LivpFile) {nm : String}
    {bs : List Nat} (h : lookupDisk st.disk nm = some bs) :
    lookupDisk (processFile st f).1.disk nm = some bs := by
  rcases processFile_disk_cases st f with hd | ⟨b1, b2, e, he, hd⟩
  · rw [hd]; exact h
  · rw [hd]
    have hmem : nm ∈ diskNames st.disk := lookupDisk_some_mem h
    have hf := processFile_stem_fresh st f
    have h1 : (processFile st f).2.1 ++ ".mov" ≠ nm :=
      fun hEq => hf ".mov" mov_mem_out (hEq ▸ hmem)
    have h2 : (processFile st f).2.1 ++ e ≠ nm := fun hEq => hf e he (hEq ▸ hmem)
    rw [lookupDisk_cons_ne h1, lookupDisk_cons_ne h2]
    exact h

theorem processFile_disk_mono (st : RunState) (f : LivpFile) {nm : String}
    (h : nm ∈ diskNames st.disk) : nm ∈ diskNames (processFile st f).1.disk := by
  rcases processFile_disk_cases st f with hd | ⟨b1, b2, e, he, hd⟩ <;> rw [hd]
  · exact h
  · rw [diskNames_cons, diskNames_cons]
    exact List.mem_cons_of_mem _ (List.mem_cons_of_mem _ h)

theorem processFile_success_mov (st : RunState) (f : LivpFile)
    (h : (processFile st f).2.2 = ExtResult.success) :
    ((processFile st f).2.1 ++ ".mov") ∈ diskNames (processFile st f).1.disk := by
  obtain ⟨stem, ar⟩ := f
  cases ar with
  | corrupt =>
    rw [processFile_corrupt_eq] at h
    simp at h
  | valid members =>
    rcases hscan : scanMembers members none none with ⟨o1, o2⟩
    cases o1 with
    | none =>
      rw [processFile_skipped_eq st stem members (Or.inl (by rw [hscan]))] at h
      simp at h
    | some i =>
      cases o2 with
      | none =>
        rw [processFile_skipped_eq st stem members (Or.inr (by rw [hscan]))] at h
        simp at h
      | some v =>
        rw [processFile_success_eq st stem members hscan]
        exact List.mem_cons_self _ _

theorem string_append_cancel_left {s a b : String} (h : s ++ a = s ++ b) : a = b := by
  have hd := congrArg String.data h
  simp only [String.data_append] at hd
  exact string_eq_of_data (List.append_cancel_left hd)

theorem allocLoop_succ (D : List String) (b : String) (fuel c : Nat) :
    allocLoop D b (fuel + 1) c =
      if collides D (candName b c) then allocLoop D b fuel (c + 1) else some c := rfl

theorem collides_false_of_not_mem {D : List String} {cand : String}
    (h : ∀ e ∈ OUT_EXTS, (cand ++ e) ∉ D) : collides D cand = false := by
  cases hx : collides D cand with
  | false => rfl
  | true =>
    exfalso
    simp only [collides, List.any_eq_true] at hx
    obtain ⟨e, he, hmem⟩ := hx
    exact h e he (by simpa using hmem)

theorem collides_true_of_mem {D : List String} {cand e : String}
    (he : e ∈ OUT_EXTS) (hmem : (cand ++ e) ∈ D) : collides D cand = true := by
  simp only [collides, List.any_eq_true]
  exact ⟨e, he, by simpa using hmem⟩

theorem runLoop_cons (st : RunState) (f : LivpFile) (fs : List LivpFile) :
    runLoop st (f :: fs) =
      ((runLoop (processFile st f).1 fs).1,
       ((processFile st f).2.1, (processFile st f).2.2)
         :: (runLoop (processFile st f).1 fs).2) := rfl

theorem runLoop_preserves_lookup (fs : List LivpFile) :
    ∀ (st : RunState) {nm : String} {bs : List Nat},
      lookupDisk st.disk nm = some bs → lookupDisk (runLoop st fs).1.disk nm = some bs := by
  induction fs with
  | nil => intro st nm bs h; exact h
  | cons f fs ih =>
    intro st nm bs h
    rw [runLoop_cons]
    exact ih _ (processFile_preserves_lookup st f h)

theorem runLoop_disk_mono (fs : List LivpFile) :
    ∀ (st : RunState) {nm : String}, nm ∈ diskNames st.disk →
      nm ∈ diskNames (runLoop st fs).1.disk := by
  induction fs with
  | nil => intro st nm h; exact h
  | cons f fs ih =>
    intro st nm h
    rw [runLoop_cons]
    exact ih _ (processFile_disk_mono st f h)

theorem runLoop_trace_fresh (fs : List LivpFile) :
    ∀ (st : RunState), ∀ p ∈ (runLoop st fs).2, ∀ e ∈ OUT_EXTS,
      (p.1 ++ e) ∉ diskNames st.disk := by
  induction fs with
  | nil =>
    intro st p hp
    simp [runLoop] at hp
  | cons f fs ih =>
    intro st p hp e he hmem
    rw [runLoop_cons] at hp
    simp only [List.mem_cons] at hp
    rcases hp with rfl | hp
    · exact processFile_stem_fresh st f e he hmem
    · exact ih _ p hp e he (processFile_disk_mono st f hmem)

theorem runLoop_trace_length (fs : List LivpFile) :
    ∀ st : RunState, (runLoop st fs).2.length = fs.length := by
  induction fs with
  | nil => intro st; rfl
  | cons f fs ih =>
    intro st
    rw [runLoop_cons]
    simp [ih]

theorem processFile_counts_cases (st : RunState) (f : LivpFile) :
    ((processFile st f).1.succ = st.succ + 1 ∧ (processFile st f).1.failed = st.failed) ∨
    ((processFile st f).1.succ = st.succ ∧ (processFile st f).1.failed = st.failed + 1) := by
  obtain ⟨stem, ar⟩ := f
  cases ar with
  | corrupt =>
    right
    rw [processFile_corrupt_eq]
    exact ⟨rfl, rfl⟩
  | valid members =>
    rcases hscan : scanMembers members none none with ⟨o1, o2⟩
    cases o1 with
    | none =>
      right
      rw [processFile_skipped_eq st stem members (Or.inl (by rw [hscan]))]
      exact ⟨rfl, rfl⟩
    | some i =>
      cases o2 with
      | none =>
        right
        rw [processFile_skipped_eq st stem members (Or.inr (by rw [hscan]))]
        exact ⟨rfl, rfl⟩
      | some v =>
        left
        rw [processFile_success_eq st stem members hscan]
        exact ⟨rfl, rfl⟩

/-- C9: every iteration of the processing loop increments exactly one of the
two counters by exactly one, and over a whole run the successful count plus
the failed count equals the number of enumerated files. -/
theorem c9_counts_partition (st : RunState) (fs : List LivpFile) :
    (∀ f : LivpFile,
      ((processFile st f).1.succ = st.succ + 1 ∧ (processFile st f).1.failed = st.failed) ∨
      ((processFile st f).1.succ = st.succ ∧ (processFile st f).1.failed = st.failed + 1)) ∧
    (runLoop st fs).1.succ + (runLoop st fs).1.failed = st.succ + st.failed + fs.length := by
  refine ⟨fun f => processFile_counts_cases st f, ?_⟩
  induction fs generalizing st with
  | nil => simp [runLoop]
  | cons f fs ih =>
    have h1 := ih (processFile st f).1
    have h2 := processFile_counts st f
    have h3 : (runLoop st (f :: fs)).1 = (runLoop (processFile st f).1 fs).1 := rfl
    rw [h3, List.length_cons]
    omega

/-- C3: a run never overwrites a file already present in the output directory
when it starts: every file name present with some contents before the run
still resolves to exactly those contents afterwards (in particular, a second
run never overwrites files written by a first run).  This holds because each
allocated stem has, at allocation time, no existing file `{stem}{ext}` for
any recognized output extension, each extraction either writes nothing or
exactly the files `{stem}{ext}` (ext recognized) and `{stem}.mov`, and the
writes for one archive are on disk before the next allocation runs. -/
theorem c3_no_cross_run_overwrite (st : RunState) (fs : List LivpFile) (nm : String)
    (bs : List Nat) (h : lookupDisk st.disk nm = some bs) :
    lookupDisk (runLoop st fs).1.disk nm = some bs ∧
    (∀ (s : RunState) (f : LivpFile),
      (∀ e ∈ OUT_EXTS, ((processFile s f).2.1 ++ e) ∉ diskNames s.disk) ∧
      ((processFile s f).1.disk = s.disk ∨
        ∃ b1 b2 e, e ∈ OUT_EXTS ∧
          (processFile s f).1.disk =
            ((processFile s f).2.1 ++ ".mov", b2)
              :: ((processFile s f).2.1 ++ e, b1) :: s.disk)) :=
  ⟨runLoop_preserves_lookup fs st h,
   fun s f => ⟨processFile_stem_fresh s f, processFile_disk_cases s f⟩⟩

theorem c3_witness :
    lookupDisk (runLoop (initState [("a.mov", [7])])
        [⟨"a", Archive.valid [⟨"i.heic", [1]⟩, ⟨"v.mov", [2]⟩]⟩]).1.disk "a.mov" = some [7] :=
  (c3_no_cross_run_overwrite (initState [("a.mov", [7])])
    [⟨"a", Archive.valid [⟨"i.heic", [1]⟩, ⟨"v.mov", [2]⟩]⟩] "a.mov" [7] (by decide)).1

/-- C1 (amended): in a run, the stems allocated for archives whose extraction
succeeds are pairwise distinct from every later allocated stem (so
successfully extracted archives never share a stem), and no allocated stem
ever matches the stem of a file with a recognized output extension that was
present in the output directory at the start of the run.  (The claim's
unconditioned pairwise distinctness fails: when an extraction writes nothing,
the next duplicate base stem is allocated the same stem again, see the
counterexample.) -/
theorem c1_unique_stems_amended (st : RunState) (fs : List LivpFile) :
    ((runLoop st fs).2.Pairwise (fun p q => p.2 = ExtResult.success → p.1 ≠ q.1)) ∧
    (∀ p ∈ (runLoop st fs).2, ∀ e ∈ OUT_EXTS, (p.1 ++ e) ∉ diskNames st.disk) := by
  constructor
  · induction fs generalizing st with
    | nil => simp [runLoop]
    | cons f fs ih =>
      rw [runLoop_cons]
      refine List.Pairwise.cons ?_ (ih (processFile st f).1)
      intro q hq hsucc hEq
      have hmov := processFile_success_mov st f hsucc
      have hfresh := runLoop_trace_fresh fs (processFile st f).1 q hq ".mov" mov_mem_out
      rw [← hEq] at hfresh
      exact hfresh hmov
  · exact runLoop_trace_fresh fs st

theorem c1_witness :
    (("a_1" : String) ++ ".mov") ∉ diskNames (initState [("a.mov", [5])]).disk :=
  (c1_unique_stems_amended (initState [("a.mov", [5])])
      [⟨"a", Archive.valid [⟨"i.heic", [1]⟩, ⟨"v.mov", [2]⟩]⟩]).2
    ("a_1", ExtResult.success) (by decide) ".mov" (by decide)

/-- C1 fails as stated: two duplicate raw stems allocated in one run against
an output directory that stays fixed (both archives are corrupt, so nothing
is ever written) receive the identical stem twice — the allocated stems are
not pairwise distinct. -/
theorem c1_counterexample :
    (runLoop (initState []) [⟨"a", Archive.corrupt⟩, ⟨"a", Archive.corrupt⟩]).2.map Prod.fst
        = ["a", "a"] ∧
    (runLoop (initState []) [⟨"a", Archive.corrupt⟩, ⟨"a", Archive.corrupt⟩]).1.disk = [] ∧
    ¬ ((runLoop (initState []) [⟨"a", Archive.corrupt⟩,
          ⟨"a", Archive.corrupt⟩]).2.map Prod.fst).Pairwise (fun a b => a ≠ b) := by
  refine ⟨by decide, by decide, ?_⟩
  intro hpw
  have h1 : (runLoop (initState []) [⟨"a", Archive.corrupt⟩,
      ⟨"a", Archive.corrupt⟩]).2.map Prod.fst = ["a", "a"] := by decide
  rw [h1] at hpw
  rcases hpw with _ | ⟨hrel, _⟩
  exact hrel "a" (List.mem_singleton.2 rfl) rfl

/-- C10: the disk-collision while loop of the allocator terminates for every
finite output-directory state: running it with fuel `allocFuel D` always
yields a final counter, at least the starting counter, whose candidate name
collides with no file on disk. -/
theorem c10_alloc_loop_terminates (D : List String) (b : String) (c : Nat) :
    ∃ c', allocLoop D b (allocFuel D) c = some c' ∧ c ≤ c' ∧
      collides D (candName b c') = false :=
  allocLoop_spec D b c

/-- C2 fails as stated: with an empty registry and an output directory that
contains no file named `b` or `b_1` with a recognized extension and that does
not change between the calls, the first call returns `b` and records `0`, but
the next call with the same base stem returns `b` again, not `b_1` — the
recorded registry value alone does not prevent the repeat. -/
theorem c2_counterexample :
    (get_unique_stem "b" [] []).1 = "b" ∧
    lookupReg (get_unique_stem "b" [] []).2 "b" = some 0 ∧
    (get_unique_stem "b" (get_unique_stem "b" [] []).2 []).1 = "b" ∧
    (get_unique_stem "b" (get_unique_stem "b" [] []).2 []).1 ≠ "b_1" := by
  refine ⟨by decide, by decide, by decide, ?_⟩
  intro h
  have h1 : (get_unique_stem "b" (get_unique_stem "b" [] []).2 []).1 = "b" := by decide
  rw [h1] at h
  exact absurd h (by decide)

/-- C2 (amended): for a base stem `b` not yet in the registry and an output
directory containing none of `b`'s candidate files, the allocator returns `b`
itself and records `0` for `b` in the registry; the next call with the same
base stem returns `b_1` provided that by then some file `b{ext}` with a
recognized output extension exists in the output directory (as happens after
the first archive's successful extraction) and no `b_1{ext}` file exists.
Against an unchanged directory without such a file the next call returns `b`
again, see the counterexample. -/
theorem c2_registry_amended (b : String) (R : List (String × Nat)) (D₁ D₂ : List String)
    (hb : sanitize_stem b = b)
    (hR : lookupReg R b = none)
    (hD₁ : ∀ e ∈ OUT_EXTS, (b ++ e) ∉ D₁)
    (e₀ : String) (he₀ : e₀ ∈ OUT_EXTS) (hmem : (b ++ e₀) ∈ D₂)
    (hD₂ : ∀ e ∈ OUT_EXTS, (candName b 1 ++ e) ∉ D₂) :
    (get_unique_stem b R D₁).1 = b ∧
    lookupReg (get_unique_stem b R D₁).2 b = some 0 ∧
    (get_unique_stem b (get_unique_stem b R D₁).2 D₂).1 = candName b 1 := by
  have hcol1 : collides D₁ (candName b 0) = false := by
    rw [candName_zero]
    exact collides_false_of_not_mem hD₁
  have hloop1 : allocLoop D₁ b (allocFuel D₁) 0 = some 0 := by
    rw [show allocFuel D₁ = 4 * D₁.length + 1 from rfl, allocLoop_succ, hcol1,
      if_neg Bool.false_ne_true]
  have hfirst : get_unique_stem b R D₁ = (b, insertReg R b 0) := by
    simp only [get_unique_stem, hb, hR]
    rw [show ((none : Option Nat).getD 0) = 0 from rfl, hloop1]
    rfl
  have hreg : lookupReg (insertReg R b 0) b = some 0 := lookupReg_insertReg_self R b 0
  have hcolb : collides D₂ (candName b 0) = true := by
    rw [candName_zero]
    exact collides_true_of_mem he₀ hmem
  have hcol2 : collides D₂ (candName b 1) = false := collides_false_of_not_mem hD₂
  have hlen : 1 ≤ D₂.length := List.length_pos.2 (List.ne_nil_of_mem hmem)
  obtain ⟨m, hm⟩ : ∃ m, allocFuel D₂ = m + 2 :=
    ⟨4 * D₂.length - 1, by simp only [allocFuel]; omega⟩
  have hloop2 : allocLoop D₂ b (allocFuel D₂) 0 = some 1 := by
    rw [hm, allocLoop_succ, hcolb, if_pos rfl]
    show allocLoop D₂ b (m + 1) 1 = some 1
    rw [allocLoop_succ, hcol2, if_neg Bool.false_ne_true]
  refine ⟨by rw [hfirst], by rw [hfirst]; exact hreg, ?_⟩
  rw [hfirst]
  simp only [get_unique_stem, hb, hreg]
  rw [show ((some 0 : Option Nat).getD 0) = 0 from rfl, hloop2]
  rfl

theorem c2_witness :
    (get_unique_stem "b" [] []).1 = "b" ∧
    lookupReg (get_unique_stem "b" [] []).2 "b" = some 0 ∧
    (get_unique_stem "b" (get_unique_stem "b" [] []).2 ["b.mov"]).1 = candName "b" 1 :=
  c2_registry_amended "b" [] [] ["b.mov"] (by decide) (by decide) (by decide)
    ".mov" (by decide) (by decide) (by decide)

/-- C4: hidden and metadata members (a lower-cased path segment starting with
a dot or with the macOS metadata-directory string) are never selected; the
selected image member is the first non-excluded member in stored order whose
lower-cased base name ends with a recognized image extension, and the
selected video member is, independently, the first whose lower-cased base
name ends with the video extension; in particular, when the filtered member
list has exactly one image member and exactly one video member, in either
relative order, both are selected and the extraction takes the success
branch. -/
theorem c4_member_selection (l : List Member) :
    (∀ m, (scanMembers l none none).1 = some m →
      isExcluded m = false ∧ hasImageExt (nameLower m) = true) ∧
    (∀ m, (scanMembers l none none).2 = some m →
      isExcluded m = false ∧ isMovName (nameLower m) = true) ∧
    ((scanMembers l none none).1
      = (l.filter (fun m => !isExcluded m)).find? (fun m => hasImageExt (nameLower m))) ∧
    ((scanMembers l none none).2
      = (l.filter (fun m => !isExcluded m)).find? (fun m => isMovName (nameLower m))) ∧
    (∀ i v,
      (l.filter (fun m => !isExcluded m)).filter (fun m => hasImageExt (nameLower m)) = [i] →
      (l.filter (fun m => !isExcluded m)).filter (fun m => isMovName (nameLower m)) = [v] →
      scanMembers l none none = (some i, some v)) ∧
    (∀ (st : RunState) (stem : String) (i v : Member),
      scanMembers l none none = (some i, some v) →
      (processFile st ⟨stem, Archive.valid l⟩).2.2 = ExtResult.success ∧
      (processFile st ⟨stem, Archive.valid l⟩).1.succ = st.succ + 1) := by
  refine ⟨?_, ?_, scanMembers_img_eq l, scanMembers_mov_eq l, ?_, ?_⟩
  · intro m hm
    have h := selected_image_ext hm
    exact ⟨h.1, h.2.1⟩
  · intro m hm
    exact selected_mov_props hm
  · intro i v hi hv
    have h1 : (scanMembers l none none).1 = some i := by
      rw [scanMembers_img_eq, find?_eq_head_filter, hi]
      rfl
    have h2 : (scanMembers l none none).2 = some v := by
      rw [scanMembers_mov_eq, find?_eq_head_filter, hv]
      rfl
    rw [← h1, ← h2]
  · intro st stem i v hscan
    rw [processFile_success_eq st stem l hscan]
    exact ⟨rfl, rfl⟩

theorem c4_witness :
    scanMembers [⟨"v.MOV", [1]⟩, ⟨"i.HEIC", [2]⟩] none none
      = (some ⟨"i.HEIC", [2]⟩, some ⟨"v.MOV", [1]⟩) :=
  (c4_member_selection [⟨"v.MOV", [1]⟩, ⟨"i.HEIC", [2]⟩]).2.2.2.2.1
    ⟨"i.HEIC", [2]⟩ ⟨"v.MOV", [1]⟩ (by decide) (by decide)

/-- C5: a valid archive whose filtered member list lacks an image member or a
video member is skipped as incomplete: the failure counter is incremented by
exactly one, the success counter and the output directory are unchanged, the
loop-body outcome is `skippedIncomplete` (no exception escapes), and the run
continues with the remaining archives. -/
theorem c5_skipped_incomplete (st : RunState) (stem : String) (members : List Member)
    (fs : List LivpFile)
    (h : (scanMembers members none none).1 = none ∨ (scanMembers members none none).2 = none) :
    (processFile st ⟨stem, Archive.valid members⟩).2.2 = ExtResult.skippedIncomplete ∧
    (processFile st ⟨stem, Archive.valid members⟩).1.failed = st.failed + 1 ∧
    (processFile st ⟨stem, Archive.valid members⟩).1.succ = st.succ ∧
    (processFile st ⟨stem, Archive.valid members⟩).1.disk = st.disk ∧
    runLoop st (⟨stem, Archive.valid members⟩ :: fs)
      = ((runLoop (processFile st ⟨stem, Archive.valid members⟩).1 fs).1,
         ((processFile st ⟨stem, Archive.valid members⟩).2.1, ExtResult.skippedIncomplete)
           :: (runLoop (processFile st ⟨stem, Archive.valid members⟩).1 fs).2) := by
  have he := processFile_skipped_eq st stem members h
  refine ⟨by rw [he], by rw [he], by rw [he], by rw [he], ?_⟩
  rw [runLoop_cons, he]

theorem c5_witness :
    (processFile (initState []) ⟨"x", Archive.valid [⟨"v.mov", [9]⟩]⟩).2.2
      = ExtResult.skippedIncomplete :=
  (c5_skipped_incomplete (initState []) "x" [⟨"v.mov", [9]⟩] [] (Or.inl (by decide))).1

/-- C6: a corrupt archive (the zip open raises `BadZipFile`) is counted as
exactly one failure: the loop-body outcome is `corrupt` (caught, no exception
escapes), the success counter and the output directory are unchanged, and
every subsequent archive in the enumeration is still processed — the trace of
the remaining run covers all of them. -/
theorem c6_corrupt_isolated (st : RunState) (stem : String) (fs : List LivpFile) :
    (processFile st ⟨stem, Archive.corrupt⟩).2.2 = ExtResult.corrupt ∧
    (processFile st ⟨stem, Archive.corrupt⟩).1.failed = st.failed + 1 ∧
    (processFile st ⟨stem, Archive.corrupt⟩).1.succ = st.succ ∧
    (processFile st ⟨stem, Archive.corrupt⟩).1.disk = st.disk ∧
    runLoop st (⟨stem, Archive.corrupt⟩ :: fs)
      = ((runLoop (processFile st ⟨stem, Archive.corrupt⟩).1 fs).1,
         ((processFile st ⟨stem, Archive.corrupt⟩).2.1, ExtResult.corrupt)
           :: (runLoop (processFile st ⟨stem, Archive.corrupt⟩).1 fs).2) ∧
    (runLoop st (⟨stem, Archive.corrupt⟩ :: fs)).2.length = fs.length + 1 := by
  refine ⟨rfl, rfl, rfl, rfl, ?_, ?_⟩
  · rw [runLoop_cons]
    rfl
  · rw [runLoop_trace_length]
    rfl

/-- C7: a successful extraction creates exactly two new files: the image
member's bytes at `{stem}{imageExt}` with `imageExt` the lower-cased suffix
of the selected image member's name (always one of the recognized image
extensions), and the video member's bytes verbatim at `{stem}.mov`; at
allocation time neither file name existed in the output directory, and the
two names are distinct. -/
theorem c7_success_two_files (st : RunState) (stem : String) (members : List Member)
    (img mov : Member)
    (h : scanMembers members none none = (some img, some mov)) :
    (processFile st ⟨stem, Archive.valid members⟩).1.disk
      = ((get_unique_stem stem st.registry (diskNames st.disk)).1 ++ ".mov", mov.content)
        :: ((get_unique_stem stem st.registry (diskNames st.disk)).1
             ++ lowerStr (posixSuffix (posixName img.name)), img.content) :: st.disk ∧
    lowerStr (posixSuffix (posixName img.name)) ∈ IMAGE_EXTS ∧
    ((get_unique_stem stem st.registry (diskNames st.disk)).1
        ++ lowerStr (posixSuffix (posixName img.name))) ∉ diskNames st.disk ∧
    ((get_unique_stem stem st.registry (diskNames st.disk)).1 ++ ".mov")
        ∉ diskNames st.disk ∧
    (get_unique_stem stem st.registry (diskNames st.disk)).1
        ++ lowerStr (posixSuffix (posixName img.name))
      ≠ (get_unique_stem stem st.registry (diskNames st.disk)).1 ++ ".mov" ∧
    (processFile st ⟨stem, Archive.valid members⟩).2.2 = ExtResult.success ∧
    (processFile st ⟨stem, Archive.valid members⟩).1.succ = st.succ + 1 := by
  have hext := selected_image_ext
    (show (scanMembers members none none).1 = some img from by rw [h])
  have hmemext : lowerStr (posixSuffix (posixName img.name)) ∈ OUT_EXTS :=
    image_sub_out _ hext.2.2
  refine ⟨?_, hext.2.2, ?_, ?_, ?_, ?_, ?_⟩
  · rw [processFile_success_eq st stem members h]
  · exact get_unique_stem_fresh stem st.registry (diskNames st.disk) _ hmemext
  · exact get_unique_stem_fresh stem st.registry (diskNames st.disk) ".mov" mov_mem_out
  · intro hEq
    exact image_ne_movext _ hext.2.2 (string_append_cancel_left hEq)
  · rw [processFile_success_eq st stem members h]
  · rw [processFile_success_eq st stem members h]

theorem c7_witness :
    lowerStr (posixSuffix (posixName (Member.mk "i.HEIC" [3]).name)) ∈ IMAGE_EXTS :=
  (c7_success_two_files (initState []) "p" [⟨"i.HEIC", [3]⟩, ⟨"v.mov", [4]⟩]
    ⟨"i.HEIC", [3]⟩ ⟨"v.mov", [4]⟩ (by decide)).2.1
